import Mathlib

/-!
# NUCLEUS-CERT — verification of the core pipeline

A shallow embedding of the certificate-generator page
(`src/app/page.tsx`): the slug derivation, spreadsheet-row
normalization, name extraction, the upload / template-upload /
generate handlers, and the archive-building loop, together with
theorems settling the specification claims.

External platform facilities (the spreadsheet reader, canvas
rendering, the zip writer, Unicode string primitives) are modelled by
explicit Lean counterparts at the interface granularity the page uses:
cells arrive as string/number/other values, rendering is an abstract
`String → α` function, and the zip object is an association list with
JSZip's replace-on-existing-key insertion.
-/

namespace NucleusCert

/-! ## Character classes of the JavaScript regexes used by `slugify`

`slugify` uses `/[^\w\s-]/g` and `/\s+/g`.  `\w` (no `u` flag) is
`[A-Za-z0-9_]`; `\s` is the ECMAScript WhiteSpace ∪ LineTerminator
set.  Both are modelled on code points. -/

/-- `\w` of the ECMAScript regex: `[A-Za-z0-9_]`. -/
def isWordChar (c : Char) : Bool :=
  decide (65 ≤ c.toNat ∧ c.toNat ≤ 90) ||
  decide (97 ≤ c.toNat ∧ c.toNat ≤ 122) ||
  decide (48 ≤ c.toNat ∧ c.toNat ≤ 57) ||
  decide (c.toNat = 95)

/-- Code points of the ECMAScript `\s` class (WhiteSpace ∪ LineTerminator). -/
def jsWsCodes : List Nat :=
  [9, 10, 11, 12, 13, 32, 160, 0x1680,
   0x2000, 0x2001, 0x2002, 0x2003, 0x2004, 0x2005, 0x2006, 0x2007,
   0x2008, 0x2009, 0x200a, 0x2028, 0x2029, 0x202f, 0x205f, 0x3000, 0xfeff]

/-- `\s` of the ECMAScript regex, and the set trimmed by `String.prototype.trim`. -/
def isJsWs (c : Char) : Bool := jsWsCodes.contains c.toNat

/-! ## A model of `String.prototype.normalize("NFKD")`

Only the facet of Unicode NFKD that the page can exercise is modelled:
the precomposed Latin-1 letters decompose into their base letter plus
a combining mark; every other character is left alone.  All table keys
are above U+007F, so the model is the identity on ASCII, as NFKD is. -/

/-- Decomposition table: precomposed Latin-1 letters → base letter + combining mark. -/
def nfkdTable : List (Char × List Char) :=
  [('À', ['A', '̀']), ('Á', ['A', '́']), ('Â', ['A', '̂']),
   ('Ã', ['A', '̃']), ('Ä', ['A', '̈']), ('Å', ['A', '̊']),
   ('Ç', ['C', '̧']), ('È', ['E', '̀']), ('É', ['E', '́']),
   ('Ê', ['E', '̂']), ('Ë', ['E', '̈']), ('Ì', ['I', '̀']),
   ('Í', ['I', '́']), ('Î', ['I', '̂']), ('Ï', ['I', '̈']),
   ('Ñ', ['N', '̃']), ('Ò', ['O', '̀']), ('Ó', ['O', '́']),
   ('Ô', ['O', '̂']), ('Õ', ['O', '̃']), ('Ö', ['O', '̈']),
   ('Ù', ['U', '̀']), ('Ú', ['U', '́']), ('Û', ['U', '̂']),
   ('Ü', ['U', '̈']), ('Ý', ['Y', '́']),
   ('à', ['a', '̀']), ('á', ['a', '́']), ('â', ['a', '̂']),
   ('ã', ['a', '̃']), ('ä', ['a', '̈']), ('å', ['a', '̊']),
   ('ç', ['c', '̧']), ('è', ['e', '̀']), ('é', ['e', '́']),
   ('ê', ['e', '̂']), ('ë', ['e', '̈']), ('ì', ['i', '̀']),
   ('í', ['i', '́']), ('î', ['i', '̂']), ('ï', ['i', '̈']),
   ('ñ', ['n', '̃']), ('ò', ['o', '̀']), ('ó', ['o', '́']),
   ('ô', ['o', '̂']), ('õ', ['o', '̃']), ('ö', ['o', '̈']),
   ('ù', ['u', '̀']), ('ú', ['u', '́']), ('û', ['u', '̂']),
   ('ü', ['u', '̈']), ('ý', ['y', '́']), ('ÿ', ['y', '̈'])]

/-- NFKD of one character: its decomposition when tabulated, itself otherwise. -/
def nfkdChar (c : Char) : List Char := (nfkdTable.lookup c).getD [c]

/-! ## String helpers on `List Char`

The page's string operations are modelled on `String.data` so that
everything reduces cleanly. -/

/-- Does `pat` occur at the head of `cs`?  (prefix test for `includes`/`startsWith`). -/
def leadMatch : List Char → List Char → Bool
  | _, [] => true
  | [], _ :: _ => false
  | c :: cs, p :: ps => c == p && leadMatch cs ps

/-- Does `pat` occur anywhere in `cs`?  Models `String.prototype.includes`. -/
def subMatch : List Char → List Char → Bool
  | [], pat => pat.isEmpty
  | c :: rest, pat => leadMatch (c :: rest) pat || subMatch rest pat

/-- `s.includes(pat)` of JavaScript. -/
def containsSub (s pat : String) : Bool := subMatch s.data pat.data

/-- `String.prototype.trim`: strip `\s` characters from both ends. -/
def jsTrimList (cs : List Char) : List Char :=
  ((cs.dropWhile isJsWs).reverse.dropWhile isJsWs).reverse

/-- `value.trim()` of JavaScript. -/
def jsTrimStr (s : String) : String := String.mk (jsTrimList s.data)

/-- Worker for `collapseWs`: `inRun` records whether the previous
character was whitespace (so the run emits only one hyphen). -/
def collapseWsAux : Bool → List Char → List Char
  | _, [] => []
  | inRun, c :: rest =>
    if isJsWs c then
      if inRun then collapseWsAux true rest
      else '-' :: collapseWsAux true rest
    else c :: collapseWsAux false rest

/-- `replace(/\s+/g, "-")`: each maximal whitespace run becomes one hyphen. -/
def collapseWs (cs : List Char) : List Char := collapseWsAux false cs

/-- `s.toLowerCase()`.  `Char.toLower` is the ASCII lowering; the only
characters this is ever applied to inside the pipeline are ASCII, and
in the header check only the ASCII letters of "name" matter. -/
def lowerString (s : String) : String := String.mk (s.data.map Char.toLower)

/-! ## `slugify` (page.tsx lines 79–87)

```js
const slugify = (value, fallbackIndex) => {
  const slug = value
    .normalize("NFKD")
    .replace(/[^\w\s-]/g, "")
    .trim()
    .replace(/\s+/g, "-")
    .toLowerCase();
  return slug || `certificate-${fallbackIndex + 1}`;
};
``` -/

/-- The character list of the normalized slug, stage by stage. -/
def slugChars (value : String) : List Char :=
  let decomposed := value.data.flatMap nfkdChar
  let kept := decomposed.filter (fun c => isWordChar c || isJsWs c || c == '-')
  let trimmed := jsTrimList kept
  let collapsed := collapseWs trimmed
  collapsed.map Char.toLower

/-- The normalized slug before the fallback test (the `slug` local of the source). -/
def slugCore (value : String) : String := String.mk (slugChars value)

/-- `slugify` of page.tsx: the normalized slug, or `certificate-{index+1}` when empty. -/
def slugify (value : String) (fallbackIndex : Nat) : String :=
  let slug := slugCore value
  if slug = "" then "certificate-" ++ toString (fallbackIndex + 1) else slug

/-! ## Spreadsheet cells and upload normalization (page.tsx lines 200–209)

`XLSX.utils.sheet_to_json(sheet, { header: 1 })` hands the page rows
of raw cell values; each cell is a string, a number, or something
else (null, boolean, a hole).  Numbers in the sheets the page reads
are integer-valued, so numeric cells are modelled as `Int` and
`String(cell)` as `toString`. -/

/-- A raw cell as delivered by the spreadsheet reader. -/
inductive Cell where
  | str (s : String)
  | num (n : Int)
  | other
  deriving DecidableEq, Repr

/-- One cell of `normalizedRows`: strings trimmed, numbers
stringified, everything else becomes the empty string. -/
def normalizeCell : Cell → String
  | Cell.str s => jsTrimStr s
  | Cell.num n => toString n
  | Cell.other => ""

/-- `normalizedRows` of `handleUpload`: normalize every cell, then
drop rows whose cells are all empty (`row.some(cell => cell)`). -/
def normalizedRows (rows : List (List Cell)) : List (List String) :=
  (rows.map (fun row => row.map normalizeCell)).filter
    (fun row => row.any (fun cell => cell != ""))

/-! ## Name extraction (page.tsx lines 142–159)

The effect that recomputes `names` from `sheetRows` and
`selectedColumn`. -/

/-- The extraction effect: header detection on row 0 of the stored
matrix, then column read / trim / drop-empties over the remaining
rows. -/
def extractNames (sheetRows : List (List String)) (col : Nat) : List String :=
  if sheetRows.length = 0 then []
  else
    let headerCell := (sheetRows.headD []).getD col ""
    let hasHeader := containsSub (lowerString headerCell) "name"
    let startIndex := if hasHeader then 1 else 0
    (((sheetRows.drop startIndex).map (fun row => row.getD col "")).map
      (fun value => jsTrimStr value)).filter (fun value => value != "")

/-! ## Application state (the `useState` hooks of `Home`) -/

/-- `uploadStatus`. -/
inductive UploadStatus where
  | idle | parsing | ready | error
  deriving DecidableEq, Repr

/-- `generateStatus`. -/
inductive GenerateStatus where
  | idle | running | success | error
  deriving DecidableEq, Repr

/-- The state hooks of `Home` that the core pipeline touches. -/
structure AppState where
  names : List String
  uploadStatus : UploadStatus
  generateStatus : GenerateStatus
  statusMessage : Option String
  position : ℚ × ℚ
  fontSize : Nat
  fontColor : String
  templateSize : Nat × Nat
  templateSrc : String
  templateData : Option String
  templateError : Option String
  sheetRows : List (List String)
  columnOptions : List (String × Nat)
  selectedColumn : Nat
  deriving DecidableEq, Repr

/-- The initial values of the `useState` hooks. -/
def initialState : AppState where
  names := []
  uploadStatus := UploadStatus.idle
  generateStatus := GenerateStatus.idle
  statusMessage := none
  position := (1/2, 1/2)
  fontSize := 72
  fontColor := "#0a0a0a"
  templateSize := (1920, 1080)
  templateSrc := "/template.webp"
  templateData := none
  templateError := none
  sheetRows := []
  columnOptions := []
  selectedColumn := 0

/-! ## `handleUpload` (page.tsx lines 186–240)

The spreadsheet reader is external: its outcome is the handler's
input, `none` when no sheet was found in the workbook, otherwise the
raw rows of the first sheet.  On success the `names` field is the
result of the extraction effect (lines 142–159) fired by the
`setSheetRows`/`setSelectedColumn` updates. -/

/-- `handleUpload`, as a transition on `AppState`. -/
def handleUpload (st : AppState) (fileName : String)
    (input : Option (List (List Cell))) : AppState :=
  match input with
  | none =>
      { st with uploadStatus := UploadStatus.error,
                statusMessage := some "No sheet found in workbook." }
  | some rows =>
      let nr := normalizedRows rows
      if nr.length = 0 then
        { st with uploadStatus := UploadStatus.error,
                  statusMessage := some "No values detected in the sheet." }
      else
        let maxColumns := nr.foldl (fun m row => max m row.length) 0
        if maxColumns = 0 then
          { st with uploadStatus := UploadStatus.error,
                    statusMessage := some "Unable to detect any columns in the sheet." }
        else
          let headerRow := nr.headD []
          let options := (List.range maxColumns).map (fun index =>
            let cell := headerRow.getD index ""
            (if cell = "" then "Column " ++ toString (index + 1) else cell, index))
          let preferred := options.findIdx? (fun option =>
            containsSub (lowerString option.1) "name")
          let selected := preferred.getD 0
          { st with sheetRows := nr,
                    columnOptions := options,
                    selectedColumn := selected,
                    names := extractNames nr selected,
                    uploadStatus := UploadStatus.ready,
                    statusMessage := some ("Detected " ++ toString nr.length ++
                      " rows in " ++ fileName ++ ".") }

/-! ## `handleTemplateUpload` (page.tsx lines 242–257) -/

/-- The part of a `File` the handler looks at, with the data URL the
`FileReader` would produce for it. -/
structure FileInfo where
  fileName : String
  mime : String
  dataUrl : String
  deriving DecidableEq, Repr

/-- `file.type.startsWith("image/")`. -/
def mimeIsImage (mime : String) : Bool := leadMatch mime.data ("image/").data

/-- `handleTemplateUpload`: reject non-image MIME types with a
template-specific message, otherwise install the data URL as the
active template. -/
def handleTemplateUpload (st : AppState) (file : Option FileInfo) : AppState :=
  match file with
  | none => st
  | some f =>
      if mimeIsImage f.mime = false then
        { st with templateError := some "Please choose an image file (JPG, PNG, SVG)." }
      else
        { st with templateSrc := f.dataUrl,
                  templateData := some f.dataUrl,
                  templateError := none }

/-! ## The zip archive (JSZip) and the generate loop (page.tsx lines 265–323)

`zip.file(name, data)` stores under `name`, replacing any existing
entry with that name in place; fresh names append.  The archive is
modelled as the association list of its entries in insertion order. -/

/-- JSZip's `zip.file`: replace in place when the name exists, append otherwise. -/
def zipInsert {α : Type} (files : List (String × α)) (k : String) (v : α) :
    List (String × α) :=
  if files.any (fun p => p.1 == k) then
    files.map (fun p => if p.1 == k then (k, v) else p)
  else
    files ++ [(k, v)]

/-- Run a list of insertions against an archive. -/
def zipAddAll {α : Type} (acc : List (String × α)) (items : List (String × α)) :
    List (String × α) :=
  items.foldl (fun a p => zipInsert a p.1 p.2) acc

/-- The insertions the generate loop performs, in loop order: entry
`index` is named `slugify(name, index) ++ ".png"` and holds the
render of that name.  `render` abstracts the canvas rasterization. -/
def archEntries {α : Type} (render : String → α) : List String → Nat → List (String × α)
  | [], _ => []
  | name :: rest, index =>
      (slugify name index ++ ".png", render name) :: archEntries render rest (index + 1)

/-- The archive produced by the generate loop on `names`. -/
def buildArchive {α : Type} (render : String → α) (names : List String) :
    List (String × α) :=
  zipAddAll [] (archEntries render names 0)

/-- First entry with key `k`, scanning from the front (zip lookup). -/
def alookup {α : Type} (k : String) : List (String × α) → Option α
  | [] => none
  | p :: rest => if p.1 == k then some p.2 else alookup k rest

/-- Number of entries with key `k`. -/
def countKey {α : Type} (k : String) (l : List (String × α)) : Nat :=
  (l.filter (fun p => p.1 == k)).length

/-- Last value inserted under key `k` in a list of insertions. -/
def lastVal {α : Type} (k : String) : List (String × α) → Option α
  | [] => none
  | p :: rest =>
      match lastVal k rest with
      | some v => some v
      | none => if p.1 == k then some p.2 else none

/-- The external outcomes `handleGenerate` depends on: whether the
template image decodes, whether a 2d context is available, and the
canvas render of one name (fixed template / anchor / style). -/
structure GenEnv where
  templateLoads : Bool
  ctxAvailable : Bool
  render : String → String

/-- `handleGenerate`: the resulting state, and the archive offered for
download (`none` when no download happens). -/
def handleGenerate (st : AppState) (env : GenEnv) :
    AppState × Option (List (String × String)) :=
  if st.names.length = 0 then (st, none)
  else
    let running := { st with generateStatus := GenerateStatus.running,
                             statusMessage := none }
    if env.templateLoads = false then
      ({ running with generateStatus := GenerateStatus.error,
                      statusMessage := some "Unable to load template image. Please try again." },
       none)
    else if env.ctxAvailable = false then
      ({ running with generateStatus := GenerateStatus.error,
                      statusMessage := some "Canvas context unavailable." },
       none)
    else
      ({ running with generateStatus := GenerateStatus.success,
                      statusMessage := some "Certificates are ready. Download should begin shortly." },
       some (buildArchive env.render st.names))

/-- `canGenerate` (page.tsx line 340). -/
def canGenerate (st : AppState) : Bool :=
  decide (0 < st.names.length) && !(st.generateStatus == GenerateStatus.running)

/-! ## Template geometry (page.tsx lines 292–293 and 332–338)

`posX = position.x * templateSize.width`, `posY = position.y *
templateSize.height`; modelled over `ℚ`. -/

/-- Anchor → absolute pixel coordinates. -/
def anchorToPixel (anchor : ℚ × ℚ) (w h : ℚ) : ℚ × ℚ :=
  (anchor.1 * w, anchor.2 * h)

/-- Absolute pixel coordinates → anchor. -/
def pixelToAnchor (pixel : ℚ × ℚ) (w h : ℚ) : ℚ × ℚ :=
  (pixel.1 / w, pixel.2 / h)

/-! ## Spec-side restatement of the Name Extractor (spec §4.1)

Written from the spec's words, to be compared with `extractNames`:
skip row 0 exactly when its cell in the chosen column, lowercased,
contains "name"; every remaining row contributes its trimmed cell at
the chosen column (empty when absent); empty entries are dropped;
order is preserved and nothing is deduplicated. -/

/-- The Name Extractor as the spec describes it. -/
def extractNamesSpec (sheetRows : List (List String)) (col : Nat) : List String :=
  let startIndex :=
    if containsSub (lowerString ((sheetRows.headD []).getD col "")) "name" then 1 else 0
  (sheetRows.drop startIndex).filterMap (fun row =>
    let value := jsTrimStr (row.getD col "")
    if value = "" then none else some value)

/-- Characters a normalized slug can consist of: lowercase ASCII
letters, digits, underscore, hyphen. -/
def isSlugChar (c : Char) : Bool :=
  decide (97 ≤ c.toNat ∧ c.toNat ≤ 122) || decide (48 ≤ c.toNat ∧ c.toNat ≤ 57) ||
  decide (c.toNat = 95) || decide (c.toNat = 45)

end NucleusCert

namespace NucleusCert

/-! ## Character-level facts -/

/-- A character below U+0080 is not a key of `nfkdTable`. -/
lemma lookup_none_of_big_keys (c : Char) (h : c.toNat < 128) :
    ∀ (t : List (Char × List Char)), (∀ p ∈ t, 127 < p.1.toNat) → t.lookup c = none := by
  intro t
  induction t with
  | nil => intro _; rfl
  | cons p rest ih =>
    intro hk
    cases p with
    | mk k v =>
      have hp : 127 < k.toNat := hk (k, v) (List.mem_cons_self _ _)
      have hne : (c == k) = false := by
        apply beq_eq_false_iff_ne.mpr
        intro he
        rw [he] at h
        omega
      rw [List.lookup_cons, hne]
      exact ih (fun q hq => hk q (List.mem_cons_of_mem _ hq))

/-- The NFKD model is the identity on ASCII. -/
lemma nfkd_ascii (c : Char) (h : c.toNat < 128) : nfkdChar c = [c] := by
  have hkeys : ∀ p ∈ nfkdTable, 127 < p.1.toNat := by decide
  unfold nfkdChar
  rw [lookup_none_of_big_keys c h nfkdTable hkeys]
  rfl

/-- Membership form of `isJsWs`. -/
lemma isJsWs_iff (c : Char) : isJsWs c = true ↔ c.toNat ∈ jsWsCodes := by
  simp [isJsWs, List.elem_eq_mem]

/-- Slug characters are not JavaScript whitespace. -/
lemma isJsWs_false_of_slugChar (c : Char) (h : isSlugChar c = true) : isJsWs c = false := by
  simp only [isSlugChar, Bool.or_eq_true, decide_eq_true_eq] at h
  rw [Bool.eq_false_iff]
  intro hw
  have hm := (isJsWs_iff c).mp hw
  simp only [jsWsCodes, List.mem_cons, List.not_mem_nil, or_false] at hm
  omega

/-- Slug characters are untouched by `Char.toLower`. -/
lemma toLower_id_of_slugChar (c : Char) (h : isSlugChar c = true) :
    Char.toLower c = c := by
  simp only [isSlugChar, Bool.or_eq_true, decide_eq_true_eq] at h
  show (if c.toNat ≥ 65 ∧ c.toNat ≤ 90 then Char.ofNat (c.toNat + 32) else c) = c
  rw [if_neg]
  omega

/-- Slug characters survive the `[^\w\s-]` filter. -/
lemma keep_of_slugChar (c : Char) (h : isSlugChar c = true) :
    (isWordChar c || isJsWs c || c == '-') = true := by
  simp only [isSlugChar, Bool.or_eq_true, decide_eq_true_eq] at h
  rcases h with ((h | h) | h) | h
  · have hw : isWordChar c = true := by
      simp only [isWordChar, Bool.or_eq_true, decide_eq_true_eq]
      omega
    rw [hw]; rfl
  · have hw : isWordChar c = true := by
      simp only [isWordChar, Bool.or_eq_true, decide_eq_true_eq]
      omega
    rw [hw]; rfl
  · have hw : isWordChar c = true := by
      simp only [isWordChar, Bool.or_eq_true, decide_eq_true_eq]
      omega
    rw [hw]; rfl
  · have hc : c = '-' := Char.ext (UInt32.ext h)
    rw [hc]
    decide

/-- Slug characters are ASCII, hence NFKD-stable. -/
lemma nfkd_id_of_slugChar (c : Char) (h : isSlugChar c = true) : nfkdChar c = [c] := by
  apply nfkd_ascii
  simp only [isSlugChar, Bool.or_eq_true, decide_eq_true_eq] at h
  omega

/-- Lowering a kept non-whitespace character yields a slug character. -/
lemma slugChar_of_keep (d : Char) (h : (isWordChar d || d == '-') = true) :
    isSlugChar (Char.toLower d) = true := by
  rcases Bool.or_eq_true_iff.mp h with hw | hh
  · simp only [isWordChar, Bool.or_eq_true, decide_eq_true_eq] at hw
    rcases hw with ((hw | hw) | hw) | hw
    · -- uppercase letter: toLower maps 65..90 into 97..122
      obtain ⟨h1, h2⟩ := hw
      have hd : Char.toLower d = Char.ofNat (d.toNat + 32) := by
        show (if d.toNat ≥ 65 ∧ d.toNat ≤ 90 then Char.ofNat (d.toNat + 32) else d)
          = Char.ofNat (d.toNat + 32)
        rw [if_pos ⟨h1, h2⟩]
      rw [hd]
      generalize hg : d.toNat = n at h1 h2
      interval_cases n <;> decide
    · have hd : Char.toLower d = d := by
        show (if d.toNat ≥ 65 ∧ d.toNat ≤ 90 then Char.ofNat (d.toNat + 32) else d) = d
        rw [if_neg]; omega
      rw [hd]
      simp only [isSlugChar, Bool.or_eq_true, decide_eq_true_eq]
      omega
    · have hd : Char.toLower d = d := by
        show (if d.toNat ≥ 65 ∧ d.toNat ≤ 90 then Char.ofNat (d.toNat + 32) else d) = d
        rw [if_neg]; omega
      rw [hd]
      simp only [isSlugChar, Bool.or_eq_true, decide_eq_true_eq]
      omega
    · have hd : Char.toLower d = d := by
        show (if d.toNat ≥ 65 ∧ d.toNat ≤ 90 then Char.ofNat (d.toNat + 32) else d) = d
        rw [if_neg]; omega
      rw [hd]
      simp only [isSlugChar, Bool.or_eq_true, decide_eq_true_eq]
      omega
  · have hc : d = '-' := beq_iff_eq.mp hh
    rw [hc]
    decide

end NucleusCert

namespace NucleusCert

/-! ## Stability of the slug pipeline on slug characters -/

lemma strMk_data (s : String) : String.mk s.data = s := by
  cases s
  rfl

lemma flatMap_id_of (l : List Char) (h : ∀ c ∈ l, nfkdChar c = [c]) :
    l.flatMap nfkdChar = l := by
  induction l with
  | nil => rfl
  | cons c rest ih =>
    rw [List.flatMap_cons, h c (List.mem_cons_self _ _),
      ih (fun d hd => h d (List.mem_cons_of_mem _ hd))]
    rfl

lemma dropWhile_eq_self_of (p : Char → Bool) (l : List Char)
    (h : ∀ c ∈ l, p c = false) : l.dropWhile p = l := by
  cases l with
  | nil => rfl
  | cons c rest =>
    rw [List.dropWhile_cons, h c (List.mem_cons_self _ _)]
    rfl

lemma jsTrim_eq_self (l : List Char) (h : ∀ c ∈ l, isJsWs c = false) :
    jsTrimList l = l := by
  unfold jsTrimList
  rw [dropWhile_eq_self_of _ _ h,
    dropWhile_eq_self_of _ _ (fun c hc => h c (List.mem_reverse.mp hc)),
    List.reverse_reverse]

lemma collapseWsAux_eq_self (b : Bool) (l : List Char)
    (h : ∀ c ∈ l, isJsWs c = false) : collapseWsAux b l = l := by
  induction l generalizing b with
  | nil => rfl
  | cons c rest ih =>
    unfold collapseWsAux
    rw [h c (List.mem_cons_self _ _)]
    simp only [Bool.false_eq_true, if_false]
    rw [ih false (fun d hd => h d (List.mem_cons_of_mem _ hd))]

lemma map_toLower_id (l : List Char) (h : ∀ c ∈ l, Char.toLower c = c) :
    l.map Char.toLower = l := by
  induction l with
  | nil => rfl
  | cons c rest ih =>
    rw [List.map_cons, h c (List.mem_cons_self _ _),
      ih (fun d hd => h d (List.mem_cons_of_mem _ hd))]

lemma mem_jsTrimList {c : Char} {l : List Char} (h : c ∈ jsTrimList l) : c ∈ l := by
  unfold jsTrimList at h
  rw [List.mem_reverse] at h
  have h1 := (List.dropWhile_sublist _).mem h
  rw [List.mem_reverse] at h1
  exact (List.dropWhile_sublist _).mem h1

lemma mem_collapseWsAux {c : Char} :
    ∀ (b : Bool) (l : List Char), c ∈ collapseWsAux b l →
      c = '-' ∨ (c ∈ l ∧ isJsWs c = false) := by
  intro b l
  induction l generalizing b with
  | nil => intro h; cases h
  | cons d rest ih =>
    intro h
    cases hjs : isJsWs d with
    | true =>
      cases b with
      | true =>
        simp only [collapseWsAux, hjs, if_true] at h
        rcases ih true h with h1 | ⟨h1, h2⟩
        · exact Or.inl h1
        · exact Or.inr ⟨List.mem_cons_of_mem _ h1, h2⟩
      | false =>
        simp only [collapseWsAux, hjs, if_true] at h
        rcases List.mem_cons.mp h with h1 | h1
        · exact Or.inl h1
        · rcases ih true h1 with h2 | ⟨h2, h3⟩
          · exact Or.inl h2
          · exact Or.inr ⟨List.mem_cons_of_mem _ h2, h3⟩
    | false =>
      simp only [collapseWsAux, hjs, Bool.false_eq_true, if_false] at h
      rcases List.mem_cons.mp h with h1 | h1
      · subst h1
        exact Or.inr ⟨List.mem_cons_self _ _, hjs⟩
      · rcases ih false h1 with h2 | ⟨h2, h3⟩
        · exact Or.inl h2
        · exact Or.inr ⟨List.mem_cons_of_mem _ h2, h3⟩

lemma slugChars_safe (s : String) : ∀ c ∈ slugChars s, isSlugChar c = true := by
  intro c hc
  simp only [slugChars, List.mem_map] at hc
  obtain ⟨d, hd, rfl⟩ := hc
  rcases mem_collapseWsAux false _ hd with rfl | ⟨hmem, hws⟩
  · decide
  · have hkept := mem_jsTrimList hmem
    have hp := (List.mem_filter.mp hkept).2
    apply slugChar_of_keep
    rcases Bool.or_eq_true_iff.mp hp with h1 | h2
    · rcases Bool.or_eq_true_iff.mp h1 with h3 | h3
      · rw [h3]
        rfl
      · rw [h3] at hws
        cases hws
    · rw [h2, Bool.or_true]

lemma slugCore_data (s : String) : (slugCore s).data = slugChars s := rfl

lemma slugChars_fixed (s : String) (h : ∀ c ∈ s.data, isSlugChar c = true) :
    slugChars s = s.data := by
  show List.map Char.toLower
    (collapseWs (jsTrimList
      (List.filter (fun c => isWordChar c || isJsWs c || c == '-')
        (s.data.flatMap nfkdChar)))) = s.data
  rw [flatMap_id_of _ (fun c hc => nfkd_id_of_slugChar c (h c hc)),
    List.filter_eq_self.mpr (fun c hc => keep_of_slugChar c (h c hc)),
    jsTrim_eq_self _ (fun c hc => isJsWs_false_of_slugChar c (h c hc))]
  unfold collapseWs
  rw [collapseWsAux_eq_self _ _ (fun c hc => isJsWs_false_of_slugChar c (h c hc)),
    map_toLower_id _ (fun c hc => toLower_id_of_slugChar c (h c hc))]

lemma slugCore_fixed (s : String) (h : ∀ c ∈ s.data, isSlugChar c = true) :
    slugCore s = s := by
  unfold slugCore
  rw [slugChars_fixed s h, strMk_data]

lemma slugCore_idem (s : String) : slugCore (slugCore s) = slugCore s :=
  slugCore_fixed _ (slugChars_safe s)

/-! ## The characters of `Nat.repr` are digits -/

lemma digitChar_slug (n : Nat) (h : n < 10) : isSlugChar (Nat.digitChar n) = true := by
  interval_cases n <;> decide

lemma toDigitsCore_slug :
    ∀ (fuel n : Nat) (ds : List Char), (∀ c ∈ ds, isSlugChar c = true) →
      ∀ c ∈ Nat.toDigitsCore 10 fuel n ds, isSlugChar c = true := by
  intro fuel
  induction fuel with
  | zero => intro n ds hds c hc; exact hds c hc
  | succ fuel ih =>
    intro n ds hds c hc
    have hnext : ∀ c ∈ Nat.digitChar (n % 10) :: ds, isSlugChar c = true := by
      intro d hd
      rcases List.mem_cons.mp hd with h1 | h1
      · rw [h1]; exact digitChar_slug _ (Nat.mod_lt _ (by omega))
      · exact hds d h1
    rw [Nat.toDigitsCore] at hc
    by_cases hz : n / 10 = 0
    · rw [if_pos hz] at hc
      exact hnext c hc
    · rw [if_neg hz] at hc
      exact ih (n / 10) _ hnext c hc

lemma repr_chars_slug (n : Nat) : ∀ c ∈ (Nat.repr n).data, isSlugChar c = true := by
  intro c hc
  exact toDigitsCore_slug (n + 1) n [] (by intro d hd; cases hd) c hc

lemma cert_chars : ∀ c ∈ ("certificate-" : String).data, isSlugChar c = true := by
  decide

lemma fallback_chars (i : Nat) :
    ∀ c ∈ ("certificate-" ++ toString (i + 1) : String).data, isSlugChar c = true := by
  intro c hc
  have hd : ("certificate-" ++ toString (i + 1) : String).data
      = "certificate-".data ++ (Nat.repr (i + 1)).data := rfl
  rw [hd] at hc
  rcases List.mem_append.mp hc with h | h
  · exact cert_chars c h
  · exact repr_chars_slug _ c h

lemma fallback_ne_empty (i : Nat) : ("certificate-" ++ toString (i + 1) : String) ≠ "" := by
  intro h
  have h2 := congrArg String.data h
  exact List.cons_ne_nil _ _ h2

/-! ## `slugify`: non-emptiness and idempotence -/

lemma slugify_ne_empty (s : String) (i : Nat) : slugify s i ≠ "" := by
  unfold slugify
  by_cases h : slugCore s = ""
  · rw [if_pos h]
    exact fallback_ne_empty i
  · rw [if_neg h]
    exact h

lemma slugify_idem (s : String) (i : Nat) : slugify (slugify s i) i = slugify s i := by
  by_cases h : slugCore s = ""
  · have h1 : slugify s i = "certificate-" ++ toString (i + 1) := by
      unfold slugify
      rw [if_pos h]
    rw [h1]
    have h2 : slugCore ("certificate-" ++ toString (i + 1)) =
        "certificate-" ++ toString (i + 1) := slugCore_fixed _ (fallback_chars i)
    unfold slugify
    rw [h2, if_neg (fallback_ne_empty i)]
  · have h1 : slugify s i = slugCore s := by
      unfold slugify
      rw [if_neg h]
    rw [h1]
    unfold slugify
    rw [slugCore_idem, if_neg h]

end NucleusCert

namespace NucleusCert

/-! ## Claim C4 — slugify: non-empty, idempotent, fallback, diacritics scenario -/

/-- C4: for every input string and index, `slugify` returns a
non-empty string and is idempotent (`slugify (slugify s i) i =
slugify s i`); when the normalized slug is empty it falls back to
`certificate-{index+1}`; and `slugify "José Ñuñez" i = "jose-nunez"`. -/
theorem c4_slugify_algebra (s : String) (i : Nat) :
    slugify s i ≠ ""
    ∧ slugify (slugify s i) i = slugify s i
    ∧ (slugCore s = "" → slugify s i = "certificate-" ++ toString (i + 1))
    ∧ slugify "José Ñuñez" i = "jose-nunez" := by
  refine ⟨slugify_ne_empty s i, slugify_idem s i, ?_, ?_⟩
  · intro h
    unfold slugify
    rw [if_pos h]
  · have hc : slugCore "José Ñuñez" = "jose-nunez" := by decide
    unfold slugify
    rw [hc]
    rfl

/-- Witness for C4 at the concrete input `"!!!"`, index 4 (a string
whose normalized slug is empty, so the fallback fires). -/
theorem c4_slugify_algebra_witness :
    slugify "!!!" 4 ≠ ""
    ∧ slugify (slugify "!!!" 4) 4 = slugify "!!!" 4
    ∧ slugify "!!!" 4 = "certificate-" ++ toString (4 + 1)
    ∧ slugify "José Ñuñez" 4 = "jose-nunez" := by
  obtain ⟨h1, h2, h3, h4⟩ := c4_slugify_algebra "!!!" 4
  exact ⟨h1, h2, h3 (by decide), h4⟩

end NucleusCert

namespace NucleusCert

/-! ## Claim C1 — the name-extraction effect matches the spec's Name Extractor -/

lemma filter_map_map_eq_filterMap (l : List (List String)) (col : Nat) :
    ((l.map (fun row => row.getD col "")).map (fun value => jsTrimStr value)).filter
        (fun value => value != "")
    = l.filterMap (fun row =>
        let value := jsTrimStr (row.getD col "")
        if value = "" then none else some value) := by
  induction l with
  | nil => rfl
  | cons r t ih =>
    simp only [List.map_cons, List.filter_cons, List.filterMap_cons]
    by_cases h : jsTrimStr (r.getD col "") = ""
    · simp only [h, bne_self_eq_false, if_false, reduceIte]
      exact ih
    · simp only [if_neg h, bne_iff_ne, ne_eq, h, not_false_eq_true, if_true, ite_true]
      rw [ih]
      simp [h]

/-- C1: for every stored sheet matrix and chosen column, the
extraction effect behaves exactly as the spec's Name Extractor:
row 0 is skipped iff its cell in the chosen column, lowercased,
contains "name"; every remaining row contributes its trimmed cell at
that column (empty when absent); empty entries are dropped; row order
is preserved and nothing is deduplicated; on the spec's scenario
`[["Full Name"], ["Alice"], ["Bob"], [""]]` with column 0 the result
is `["Alice", "Bob"]`. -/
theorem c1_extract_names (rows : List (List String)) (col : Nat) :
    extractNames rows col = extractNamesSpec rows col
    ∧ extractNames [["Full Name"], ["Alice"], ["Bob"], [""]] 0 = ["Alice", "Bob"] := by
  constructor
  · by_cases hrows : rows.length = 0
    · have hnil : rows = [] := List.length_eq_zero.mp hrows
      subst hnil
      rfl
    · unfold extractNames extractNamesSpec
      rw [if_neg hrows]
      exact filter_map_map_eq_filterMap
        (rows.drop
          (if containsSub (lowerString ((rows.headD []).getD col "")) "name" then 1 else 0))
        col
  · decide

end NucleusCert

namespace NucleusCert

/-! ## Archive lemmas: lookups, entry counts, and last-write-wins -/

lemma alookup_replace_of_any {α : Type} (acc : List (String × α)) (k : String) (v : α)
    (h : acc.any (fun p => p.1 == k) = true) :
    alookup k (acc.map (fun p => if p.1 == k then (k, v) else p)) = some v := by
  induction acc with
  | nil => cases h
  | cons p rest ih =>
    simp only [List.map_cons]
    by_cases hp : (p.1 == k) = true
    · rw [if_pos hp]
      simp [alookup]
    · rw [if_neg hp]
      simp only [List.any_cons, hp, Bool.false_or] at h
      simp only [alookup, hp]
      exact ih h

lemma alookup_append_right {α : Type} (acc l : List (String × α)) (k : String)
    (h : ∀ p ∈ acc, (p.1 == k) = false) :
    alookup k (acc ++ l) = alookup k l := by
  induction acc with
  | nil => rfl
  | cons p rest ih =>
    simp only [List.cons_append, alookup, h p (List.mem_cons_self _ _)]
    exact ih (fun q hq => h q (List.mem_cons_of_mem _ hq))

lemma alookup_insert_self {α : Type} (acc : List (String × α)) (k : String) (v : α) :
    alookup k (zipInsert acc k v) = some v := by
  unfold zipInsert
  by_cases h : acc.any (fun p => p.1 == k) = true
  · rw [if_pos h]
    exact alookup_replace_of_any acc k v h
  · rw [if_neg h]
    have hall : ∀ p ∈ acc, (p.1 == k) = false := by
      intro p hp
      rcases Bool.eq_false_or_eq_true (p.1 == k) with hb | hb
      · exact absurd (List.any_eq_true.mpr ⟨p, hp, hb⟩) h
      · exact hb
    rw [alookup_append_right acc _ k hall]
    simp [alookup]

lemma alookup_map_replace_other {α : Type} (acc : List (String × α)) (k : String)
    (v : α) (q : String) (hne : q ≠ k) :
    alookup q (acc.map (fun p => if p.1 == k then (k, v) else p)) = alookup q acc := by
  induction acc with
  | nil => rfl
  | cons p rest ih =>
    simp only [List.map_cons]
    by_cases hp : (p.1 == k) = true
    · rw [if_pos hp]
      have hpq : (p.1 == q) = false := by
        rw [beq_iff_eq.mp hp]
        exact beq_eq_false_iff_ne.mpr (fun he => hne he.symm)
      have hkq : (k == q) = false := beq_eq_false_iff_ne.mpr (fun he => hne he.symm)
      simp only [alookup, hpq, hkq]
      exact ih
    · rw [if_neg hp]
      cases hq : (p.1 == q) with
      | true => simp only [alookup, hq, if_true, ite_true]
      | false =>
        simp only [alookup, hq, Bool.false_eq_true, if_false]
        exact ih

lemma alookup_append_single_other {α : Type} (acc : List (String × α)) (k : String)
    (v : α) (q : String) (hne : q ≠ k) :
    alookup q (acc ++ [(k, v)]) = alookup q acc := by
  induction acc with
  | nil =>
    have hkq : (k == q) = false := beq_eq_false_iff_ne.mpr (fun he => hne he.symm)
    simp only [List.nil_append, alookup, hkq, Bool.false_eq_true, if_false]
  | cons p rest ih =>
    simp only [List.cons_append, alookup]
    cases hq : (p.1 == q) with
    | true => simp only [if_true, ite_true]
    | false =>
      simp only [Bool.false_eq_true, if_false]
      exact ih

lemma alookup_insert_other {α : Type} (acc : List (String × α)) (k : String) (v : α)
    (q : String) (hne : q ≠ k) :
    alookup q (zipInsert acc k v) = alookup q acc := by
  unfold zipInsert
  by_cases h : acc.any (fun p => p.1 == k) = true
  · rw [if_pos h]
    exact alookup_map_replace_other acc k v q hne
  · rw [if_neg h]
    exact alookup_append_single_other acc k v q hne

lemma countKey_cons {α : Type} (k : String) (p : String × α) (l : List (String × α)) :
    countKey k (p :: l) = (if (p.1 == k) = true then 1 else 0) + countKey k l := by
  by_cases h : (p.1 == k) = true
  · simp [countKey, List.filter_cons, h, Nat.add_comm]
  · simp [countKey, List.filter_cons, h]

lemma countKey_append {α : Type} (k : String) (l1 l2 : List (String × α)) :
    countKey k (l1 ++ l2) = countKey k l1 + countKey k l2 := by
  simp [countKey, List.filter_append]

lemma countKey_map_replace_self {α : Type} (acc : List (String × α)) (k : String) (v : α) :
    countKey k (acc.map (fun p => if p.1 == k then (k, v) else p)) = countKey k acc := by
  induction acc with
  | nil => rfl
  | cons p rest ih =>
    simp only [List.map_cons]
    cases hp : (p.1 == k) with
    | true =>
      simp [countKey_cons, hp]
      simpa using ih
    | false =>
      simp [countKey_cons, hp]
      simpa using ih

lemma countKey_insert_self {α : Type} (acc : List (String × α)) (k : String) (v : α) :
    countKey k (zipInsert acc k v)
      = if acc.any (fun p => p.1 == k) = true then countKey k acc else countKey k acc + 1 := by
  unfold zipInsert
  by_cases h : acc.any (fun p => p.1 == k) = true
  · rw [if_pos h, if_pos h]
    exact countKey_map_replace_self acc k v
  · rw [if_neg h, if_neg h, countKey_append]
    simp [countKey]

lemma countKey_map_replace_other {α : Type} (acc : List (String × α)) (k : String)
    (v : α) (q : String) (hne : q ≠ k) :
    countKey q (acc.map (fun p => if p.1 == k then (k, v) else p)) = countKey q acc := by
  induction acc with
  | nil => rfl
  | cons p rest ih =>
    simp only [List.map_cons]
    cases hp : (p.1 == k) with
    | true =>
      have hpq : (p.1 == q) = false := by
        rw [beq_iff_eq.mp hp]
        exact beq_eq_false_iff_ne.mpr (fun he => hne he.symm)
      have hkq : (k == q) = false := beq_eq_false_iff_ne.mpr (fun he => hne he.symm)
      simp [countKey_cons, hpq, hkq]
      simpa using ih
    | false =>
      simp [countKey_cons]
      simpa using ih

lemma countKey_insert_other {α : Type} (acc : List (String × α)) (k : String) (v : α)
    (q : String) (hne : q ≠ k) :
    countKey q (zipInsert acc k v) = countKey q acc := by
  unfold zipInsert
  by_cases h : acc.any (fun p => p.1 == k) = true
  · rw [if_pos h]
    exact countKey_map_replace_other acc k v q hne
  · rw [if_neg h, countKey_append, countKey_cons]
    have hkq : (k == q) = false := beq_eq_false_iff_ne.mpr (fun he => hne he.symm)
    simp [countKey, hkq]

lemma countKey_pos_of_any {α : Type} (acc : List (String × α)) (k : String)
    (h : acc.any (fun p => p.1 == k) = true) : 1 ≤ countKey k acc := by
  obtain ⟨p, hp, hpk⟩ := List.any_eq_true.mp h
  have : p ∈ acc.filter (fun p => p.1 == k) := List.mem_filter.mpr ⟨hp, hpk⟩
  have hlen := List.length_pos.mpr (List.ne_nil_of_mem this)
  exact hlen

lemma countKey_zero_of_not_any {α : Type} (acc : List (String × α)) (k : String)
    (h : acc.any (fun p => p.1 == k) = false) : countKey k acc = 0 := by
  unfold countKey
  rw [List.filter_eq_nil_iff.mpr]
  · rfl
  · intro p hp
    intro hpk
    rw [List.any_eq_false] at h
    exact h p hp hpk

end NucleusCert

namespace NucleusCert

/-! ## Folding insertions: lookup sees the last write, keys occur once -/

lemma zipAddAll_cons {α : Type} (acc : List (String × α)) (p : String × α)
    (items : List (String × α)) :
    zipAddAll acc (p :: items) = zipAddAll (zipInsert acc p.1 p.2) items := rfl

lemma lastVal_none_of_all_ne {α : Type} (k : String) (items : List (String × α))
    (h : ∀ p ∈ items, (p.1 == k) = false) : lastVal k items = none := by
  induction items with
  | nil => rfl
  | cons p rest ih =>
    have h1 := ih (fun q hq => h q (List.mem_cons_of_mem _ hq))
    have h2 := h p (List.mem_cons_self _ _)
    simp only [lastVal, h1, h2, Bool.false_eq_true, if_false]

lemma alookup_zipAddAll {α : Type} (k : String) (items : List (String × α)) :
    ∀ acc, alookup k (zipAddAll acc items)
      = match lastVal k items with
        | some v => some v
        | none => alookup k acc := by
  induction items with
  | nil => intro acc; rfl
  | cons p rest ih =>
    intro acc
    rw [zipAddAll_cons, ih]
    cases hrest : lastVal k rest with
    | some v => simp only [lastVal, hrest]
    | none =>
      simp only [lastVal, hrest]
      cases hp : (p.1 == k) with
      | true =>
        simp only [if_true, ite_true]
        rw [← beq_iff_eq.mp hp]
        exact alookup_insert_self acc p.1 p.2
      | false =>
        simp only [Bool.false_eq_true, if_false]
        exact alookup_insert_other acc p.1 p.2 k
          (fun he => by rw [he] at hp; simp at hp)

lemma countKey_zipAddAll {α : Type} (k : String) (items : List (String × α)) :
    ∀ acc, countKey k (zipAddAll acc items)
      = if items.any (fun p => p.1 == k) = true then max (countKey k acc) 1
        else countKey k acc := by
  induction items with
  | nil => intro acc; simp [zipAddAll]
  | cons p rest ih =>
    intro acc
    rw [zipAddAll_cons, ih]
    cases hp : (p.1 == k) with
    | true =>
      have hk : p.1 = k := beq_iff_eq.mp hp
      have hins : countKey k (zipInsert acc p.1 p.2) = max (countKey k acc) 1 := by
        rw [hk, countKey_insert_self]
        by_cases hany : acc.any (fun p => p.1 == k) = true
        · rw [if_pos hany]
          have := countKey_pos_of_any acc k hany
          omega
        · rw [if_neg hany,
            countKey_zero_of_not_any acc k (Bool.not_eq_true _ ▸ Bool.of_not_eq_true hany)]
          omega
      have hcons : (p :: rest).any (fun q => q.1 == k) = true := by
        simp [List.any_cons, hp]
      rw [hins, hcons, if_pos rfl]
      by_cases hr : rest.any (fun q => q.1 == k) = true
      · rw [if_pos hr]
        omega
      · rw [if_neg hr]
    | false =>
      have hne : k ≠ p.1 := fun he => by rw [he] at hp; simp at hp
      rw [countKey_insert_other acc p.1 p.2 k hne]
      have hcons : (p :: rest).any (fun q => q.1 == k)
          = rest.any (fun q => q.1 == k) := by
        simp [List.any_cons, hp]
      rw [hcons]

/-- Index-based access to a list of insertions: its `getD` entries. -/
lemma getD_mem {α : Type} (l : List α) (d : α) :
    ∀ j, j < l.length → l.getD j d ∈ l := by
  induction l with
  | nil => intro j hj; cases hj
  | cons p rest ih =>
    intro j hj
    cases j with
    | zero =>
      rw [List.getD_cons_zero]
      exact List.mem_cons_self _ _
    | succ j =>
      rw [List.getD_cons_succ]
      exact List.mem_cons_of_mem _ (ih j (by simpa using hj))

/-- When index `j` holds key `k` and no later index does, the last
value written under `k` is the one at `j`. -/
lemma lastVal_of_last_key {α : Type} (k : String) (d : String × α) :
    ∀ (items : List (String × α)) (j : Nat), j < items.length →
      ((items.getD j d).1 == k) = true →
      (∀ t, j < t → t < items.length → ((items.getD t d).1 == k) = false) →
      lastVal k items = some (items.getD j d).2 := by
  intro items
  induction items with
  | nil => intro j hj; cases hj
  | cons p rest ih =>
    intro j hj hkey hafter
    cases j with
    | zero =>
      rw [List.getD_cons_zero] at hkey ⊢
      have hnone : lastVal k rest = none := by
        apply lastVal_none_of_all_ne
        intro q hq
        obtain ⟨⟨i, hi⟩, hgq⟩ := List.mem_iff_get.mp hq
        have := hafter (i + 1) (by omega) (by simpa using hi)
        rw [List.getD_cons_succ, List.getD_eq_getElem rest d hi] at this
        rw [← hgq]
        simpa using this
      simp only [lastVal, hnone, hkey, if_true, ite_true]
    | succ j =>
      rw [List.getD_cons_succ] at hkey ⊢
      have hrest := ih j (by simpa using hj) hkey (by
        intro t ht1 ht2
        have := hafter (t + 1) (by omega) (by simpa using ht2)
        rw [List.getD_cons_succ] at this
        exact this)
      simp only [lastVal, hrest]

/-! ## Fresh keys only append -/

lemma zipAddAll_fresh {α : Type} :
    ∀ (items acc : List (String × α)),
      (∀ q ∈ items, ∀ r ∈ acc, (q.1 == r.1) = false) →
      items.Pairwise (fun p q => p.1 ≠ q.1) →
      zipAddAll acc items = acc ++ items := by
  intro items
  induction items with
  | nil =>
    intro acc _ _
    simp [zipAddAll]
  | cons p rest ih =>
    intro acc hdisj hpw
    rw [zipAddAll_cons]
    have hnot : acc.any (fun r => r.1 == p.1) = false := by
      rw [List.any_eq_false]
      intro r hr hbad
      have h1 := hdisj p (List.mem_cons_self _ _) r hr
      rw [beq_iff_eq.mp hbad] at h1
      simp at h1
    have hins : zipInsert acc p.1 p.2 = acc ++ [p] := by
      unfold zipInsert
      rw [if_neg (by rw [hnot]; exact Bool.false_ne_true)]
    rw [hins, ih (acc ++ [p]) ?_ (List.pairwise_cons.mp hpw).2]
    · rw [List.append_assoc]
      rfl
    · intro q hq r hr
      rcases List.mem_append.mp hr with h1 | h1
      · exact hdisj q (List.mem_cons_of_mem _ hq) r h1
      · have hr2 : r = p := by simpa using h1
        subst hr2
        have hne := (List.pairwise_cons.mp hpw).1 q hq
        exact beq_eq_false_iff_ne.mpr (fun he => hne he.symm)

/-! ## The generate loop's insertions, entry by entry -/

lemma archEntries_length {α : Type} (render : String → α) :
    ∀ (names : List String) (k : Nat), (archEntries render names k).length = names.length := by
  intro names
  induction names with
  | nil => intro k; rfl
  | cons n rest ih =>
    intro k
    simp only [archEntries, List.length_cons, ih]

lemma archEntries_getD {α : Type} (render : String → α) (d : String × α) :
    ∀ (names : List String) (k i : Nat), i < names.length →
      (archEntries render names k).getD i d
        = (slugify (names.getD i "") (k + i) ++ ".png", render (names.getD i "")) := by
  intro names
  induction names with
  | nil => intro k i hi; cases hi
  | cons n rest ih =>
    intro k i hi
    cases i with
    | zero => simp [archEntries]
    | succ i =>
      simp only [archEntries, List.getD_cons_succ]
      rw [ih (k + 1) i (by simpa using hi)]
      have : k + 1 + i = k + (i + 1) := by omega
      rw [this]

lemma archEntries_mem {α : Type} (render : String → α) :
    ∀ (names : List String) (k : Nat) (q : String × α),
      q ∈ archEntries render names k →
      ∃ i, i < names.length
        ∧ q = (slugify (names.getD i "") (k + i) ++ ".png", render (names.getD i "")) := by
  intro names
  induction names with
  | nil => intro k q hq; cases hq
  | cons n rest ih =>
    intro k q hq
    rcases List.mem_cons.mp hq with h1 | h1
    · exact ⟨0, by simp, by simpa using h1⟩
    · obtain ⟨i, hi, he⟩ := ih (k + 1) q h1
      refine ⟨i + 1, by simpa using hi, ?_⟩
      rw [he, List.getD_cons_succ]
      have : k + 1 + i = k + (i + 1) := by omega
      rw [this]

lemma archEntries_enumFrom {α : Type} (render : String → α) :
    ∀ (names : List String) (k : Nat),
      archEntries render names k
        = (List.enumFrom k names).map (fun p => (slugify p.2 p.1 ++ ".png", render p.2)) := by
  intro names
  induction names with
  | nil => intro k; rfl
  | cons n rest ih =>
    intro k
    rw [List.enumFrom_cons, List.map_cons]
    simp only [archEntries, ih]

/-- Strings are cancellable on the right of `++`. -/
lemma string_append_right_cancel {a b t : String} (h : a ++ t = b ++ t) : a = b := by
  have hd : a.data ++ t.data = b.data ++ t.data := congrArg String.data h
  have hab := List.append_cancel_right hd
  cases a with
  | mk da =>
    cases b with
    | mk db =>
      have : da = db := hab
      rw [this]

lemma archEntries_pairwise {α : Type} (render : String → α) :
    ∀ (names : List String) (k : Nat),
      (∀ i j, i < names.length → j < names.length → i ≠ j →
        slugify (names.getD i "") (k + i) ≠ slugify (names.getD j "") (k + j)) →
      (archEntries render names k).Pairwise (fun p q => p.1 ≠ q.1) := by
  intro names
  induction names with
  | nil => intro k _; exact List.Pairwise.nil
  | cons n rest ih =>
    intro k hdist
    rw [archEntries]
    apply List.Pairwise.cons
    · intro q hq
      obtain ⟨i, hi, he⟩ := archEntries_mem render rest (k + 1) q hq
      rw [he]
      intro hbad
      have hslug := string_append_right_cancel hbad
      have hd := hdist 0 (i + 1) (by simp) (by simpa using hi) (by omega)
      rw [List.getD_cons_zero, List.getD_cons_succ, Nat.add_zero] at hd
      have : k + (i + 1) = k + 1 + i := by omega
      rw [this] at hd
      exact hd hslug
    · apply ih (k + 1)
      intro i j hi hj hne
      have hd := hdist (i + 1) (j + 1) (by simpa using hi) (by simpa using hj) (by omega)
      rw [List.getD_cons_succ, List.getD_cons_succ] at hd
      have h1 : k + (i + 1) = k + 1 + i := by omega
      have h2 : k + (j + 1) = k + 1 + j := by omega
      rw [h1, h2] at hd
      exact hd

end NucleusCert

namespace NucleusCert

/-! ## Claim C2 — one archive entry per name, in order, named by the slug

As universally stated the claim fails: two names whose slugs coincide
share one archive entry (JSZip overwrites).  `c2_counterexample`
exhibits this; `c2_batch_archive` proves the claim under the
missing hypothesis that the slugs are pairwise distinct. -/

/-- C2 counterexample: the NameList `["Bob", "bob"]` has two names,
but both slugify to "bob", so the archive holds a single entry — not
one entry per name. -/
theorem c2_counterexample :
    (buildArchive (fun n => n) ["Bob", "bob"]).length = 1
    ∧ (["Bob", "bob"] : List String).length = 2
    ∧ (buildArchive (fun n => n) ["Bob", "bob"]).map Prod.fst
        ≠ ["bob.png", "bob.png"] := by
  refine ⟨by decide, by decide, by decide⟩

/-- C2 (amended): for every NameList whose slugs are pairwise
distinct, the archive is exactly one entry per name, in input order,
entry `i` named `slugify(name_i, i) ++ ".png"` and holding the render
of `name_i`. -/
theorem c2_batch_archive {α : Type} (render : String → α) (names : List String)
    (hdist : ∀ i j, i < names.length → j < names.length → i ≠ j →
      slugify (names.getD i "") i ≠ slugify (names.getD j "") j) :
    buildArchive render names
      = names.enum.map (fun p => (slugify p.2 p.1 ++ ".png", render p.2)) := by
  unfold buildArchive
  rw [zipAddAll_fresh (archEntries render names 0) []
    (by intro q _ r hr; cases hr)
    (archEntries_pairwise render names 0 (by
      intro i j hi hj hne
      rw [Nat.zero_add, Nat.zero_add]
      exact hdist i j hi hj hne))]
  rw [List.nil_append]
  exact archEntries_enumFrom render names 0

/-- Witness for C2 (amended) on the two-name list `["Al", "Bo"]`,
whose slugs `al` and `bo` are distinct. -/
theorem c2_batch_archive_witness :
    buildArchive (fun n => n) ["Al", "Bo"]
      = (["Al", "Bo"] : List String).enum.map
          (fun p => (slugify p.2 p.1 ++ ".png", p.2)) := by
  apply c2_batch_archive
  intro i j hi hj hne
  have hi2 : i < 2 := by simpa using hi
  have hj2 : j < 2 := by simpa using hj
  interval_cases i <;> interval_cases j <;> first | omega | decide

/-! ## Claim C5 — colliding slugs: one entry, last write wins -/

/-- C5: when two names at indices `i < j` slugify to the same string
and no later name shares that slug, the archive holds exactly one
entry under that slug, and its contents are the render of the later
name, `names[j]` — the earlier render was silently overwritten. -/
theorem c5_collision_overwrite {α : Type} (render : String → α)
    (names : List String) (i j : Nat)
    (_hij : i < j) (hj : j < names.length)
    (_hslug : slugify (names.getD i "") i = slugify (names.getD j "") j)
    (hlast : ∀ t, j < t → t < names.length →
      slugify (names.getD t "") t ≠ slugify (names.getD j "") j) :
    alookup (slugify (names.getD j "") j ++ ".png") (buildArchive render names)
        = some (render (names.getD j ""))
    ∧ countKey (slugify (names.getD j "") j ++ ".png") (buildArchive render names)
        = 1 := by
  have hlen : j < (archEntries render names 0).length := by
    rw [archEntries_length]
    exact hj
  have hkeyj : ((archEntries render names 0).getD j ("", render "")).1
      = slugify (names.getD j "") j ++ ".png" := by
    rw [archEntries_getD render ("", render "") names 0 j hj, Nat.zero_add]
  have hocc : (archEntries render names 0).any
      (fun p => p.1 == slugify (names.getD j "") j ++ ".png") = true := by
    apply List.any_eq_true.mpr
    refine ⟨(archEntries render names 0).getD j ("", render ""),
      getD_mem _ _ j hlen, ?_⟩
    rw [hkeyj]
    exact beq_self_eq_true _
  have hlv : lastVal (slugify (names.getD j "") j ++ ".png")
      (archEntries render names 0) = some (render (names.getD j "")) := by
    have := lastVal_of_last_key (slugify (names.getD j "") j ++ ".png")
      ("", render "") (archEntries render names 0) j hlen
      (by rw [hkeyj]; exact beq_self_eq_true _)
      (by
        intro t ht1 ht2
        rw [archEntries_length] at ht2
        rw [archEntries_getD render ("", render "") names 0 t ht2, Nat.zero_add]
        apply beq_eq_false_iff_ne.mpr
        intro he
        exact hlast t ht1 ht2 (string_append_right_cancel he))
    rw [this, archEntries_getD render ("", render "") names 0 j hj]
  constructor
  · unfold buildArchive
    rw [alookup_zipAddAll, hlv]
  · unfold buildArchive
    rw [countKey_zipAddAll, if_pos hocc]
    rfl

/-- Witness for C5: `["Bob", "bob"]` — both slugify to "bob"; the
archive's sole `bob.png` entry holds the render of the later name. -/
theorem c5_collision_overwrite_witness :
    alookup (slugify ((["Bob", "bob"] : List String).getD 1 "") 1 ++ ".png")
        (buildArchive (fun n => n) ["Bob", "bob"]) = some "bob"
    ∧ countKey (slugify ((["Bob", "bob"] : List String).getD 1 "") 1 ++ ".png")
        (buildArchive (fun n => n) ["Bob", "bob"]) = 1 := by
  have h := c5_collision_overwrite (fun n => n) ["Bob", "bob"] 0 1
    (by omega) (by decide) (by decide)
    (by
      intro t ht1 ht2
      exfalso
      simp at ht2
      omega)
  exact h

end NucleusCert

namespace NucleusCert

/-! ## Claim C3 — upload failure: error state, but the old list is kept

As stated the claim fails: the catch block sets only the status and
message; it does not clear `names` (nor `sheetRows`).
`c3_counterexample` shows a failing upload that leaves a previously
loaded list in place; `c3_upload_error_state` proves the
behaviour that does hold. -/

/-- C3 counterexample: a state holding the loaded list `["Alice"]`
goes through a failing upload (no sheet in the workbook); the status
becomes `error`, but the name list is still `["Alice"]`, not
cleared. -/
theorem c3_counterexample :
    (handleUpload { initialState with
        names := ["Alice"], sheetRows := [["Alice"]],
        uploadStatus := UploadStatus.ready } "bad.xlsx" none).uploadStatus
      = UploadStatus.error
    ∧ (handleUpload { initialState with
        names := ["Alice"], sheetRows := [["Alice"]],
        uploadStatus := UploadStatus.ready } "bad.xlsx" none).names = ["Alice"]
    ∧ (["Alice"] : List String) ≠ ([] : List String) := by
  refine ⟨rfl, rfl, by decide⟩

/-- C3 (amended): when a spreadsheet upload fails (no sheet found, or
no non-empty rows survive normalization), the upload status becomes
`error` carrying a human-readable message — and the previously loaded
name list and sheet rows are left unchanged, not cleared. -/
theorem c3_upload_error_state (st : AppState) (fileName : String)
    (input : Option (List (List Cell)))
    (hfail : input = none
      ∨ ∃ rows, input = some rows ∧ normalizedRows rows = []) :
    (handleUpload st fileName input).uploadStatus = UploadStatus.error
    ∧ (∃ msg, (handleUpload st fileName input).statusMessage = some msg)
    ∧ (handleUpload st fileName input).names = st.names
    ∧ (handleUpload st fileName input).sheetRows = st.sheetRows := by
  rcases hfail with h | ⟨rows, hrows, hnr⟩
  · subst h
    exact ⟨rfl, ⟨_, rfl⟩, rfl, rfl⟩
  · subst hrows
    have hres : handleUpload st fileName (some rows)
        = { st with uploadStatus := UploadStatus.error,
                    statusMessage := some "No values detected in the sheet." } := by
      simp only [handleUpload]
      rw [hnr]
      rfl
    rw [hres]
    exact ⟨rfl, ⟨_, rfl⟩, rfl, rfl⟩

/-- Witness for C3 (amended): a failing upload (`none`) against a
state that holds a loaded list. -/
theorem c3_upload_error_state_witness :
    (handleUpload { initialState with
        names := ["Alice"], sheetRows := [["Alice"]],
        uploadStatus := UploadStatus.ready } "bad.xlsx" none).uploadStatus
      = UploadStatus.error
    ∧ (∃ msg, (handleUpload { initialState with
        names := ["Alice"], sheetRows := [["Alice"]],
        uploadStatus := UploadStatus.ready } "bad.xlsx" none).statusMessage = some msg)
    ∧ (handleUpload { initialState with
        names := ["Alice"], sheetRows := [["Alice"]],
        uploadStatus := UploadStatus.ready } "bad.xlsx" none).names
      = ({ initialState with
        names := ["Alice"], sheetRows := [["Alice"]],
        uploadStatus := UploadStatus.ready } : AppState).names
    ∧ (handleUpload { initialState with
        names := ["Alice"], sheetRows := [["Alice"]],
        uploadStatus := UploadStatus.ready } "bad.xlsx" none).sheetRows
      = ({ initialState with
        names := ["Alice"], sheetRows := [["Alice"]],
        uploadStatus := UploadStatus.ready } : AppState).sheetRows :=
  c3_upload_error_state _ "bad.xlsx" none (Or.inl rfl)

/-! ## Claim C6 — anchor/pixel round-trip -/

/-- C6: for an anchor in `[0,1]²` and positive template dimensions,
pixel conversion (`pixel = anchor * dimension`) followed by division
recovers the anchor exactly; and anchor `(0.5, 0.5)` on a `1920×1080`
template lands at pixel `(960, 540)`. -/
theorem c6_anchor_roundtrip (anchor : ℚ × ℚ) (w h : ℚ)
    (hx0 : 0 ≤ anchor.1) (hx1 : anchor.1 ≤ 1)
    (hy0 : 0 ≤ anchor.2) (hy1 : anchor.2 ≤ 1)
    (hw : 0 < w) (hh : 0 < h) :
    pixelToAnchor (anchorToPixel anchor w h) w h = anchor
    ∧ anchorToPixel (1/2, 1/2) 1920 1080 = (960, 540) := by
  constructor
  · obtain ⟨x, y⟩ := anchor
    unfold anchorToPixel pixelToAnchor
    simp only
    rw [mul_div_cancel_right₀ x (ne_of_gt hw), mul_div_cancel_right₀ y (ne_of_gt hh)]
  · unfold anchorToPixel
    norm_num

/-- Witness for C6 at anchor `(1/2, 1/2)` on a `1920×1080` template. -/
theorem c6_anchor_roundtrip_witness :
    pixelToAnchor (anchorToPixel (1/2, 1/2) 1920 1080) 1920 1080 = ((1:ℚ)/2, (1:ℚ)/2)
    ∧ anchorToPixel (1/2, 1/2) 1920 1080 = (960, 540) :=
  c6_anchor_roundtrip (1/2, 1/2) 1920 1080
    (by norm_num) (by norm_num) (by norm_num) (by norm_num) (by norm_num) (by norm_num)

/-! ## Claim C7 — template decode failure aborts the batch -/

/-- C7: with a non-empty name list, if the template image fails to
decode, generation ends in the `error` state with the descriptive
message, and no archive (not even a partial one) is offered. -/
theorem c7_template_decode_failure (st : AppState) (env : GenEnv)
    (hn : st.names ≠ []) (hl : env.templateLoads = false) :
    (handleGenerate st env).1.generateStatus = GenerateStatus.error
    ∧ (handleGenerate st env).1.statusMessage
        = some "Unable to load template image. Please try again."
    ∧ (handleGenerate st env).2 = none := by
  unfold handleGenerate
  rw [if_neg (fun h0 => hn (List.length_eq_zero.mp h0)), if_pos hl]
  exact ⟨rfl, rfl, rfl⟩

/-- Witness for C7: one name, an environment whose template fails to load. -/
theorem c7_template_decode_failure_witness :
    (handleGenerate { initialState with names := ["Alice"] }
        ⟨false, true, fun n => n⟩).1.generateStatus = GenerateStatus.error
    ∧ (handleGenerate { initialState with names := ["Alice"] }
        ⟨false, true, fun n => n⟩).1.statusMessage
        = some "Unable to load template image. Please try again."
    ∧ (handleGenerate { initialState with names := ["Alice"] }
        ⟨false, true, fun n => n⟩).2 = none :=
  c7_template_decode_failure _ _ (by decide) rfl

/-! ## Claim C8 — rejected template upload keeps the active template -/

/-- C8: a template upload whose MIME type is not `image/*` sets the
template-specific error message and leaves both the active template
source and the stored payload unchanged. -/
theorem c8_template_upload_rejected (st : AppState) (f : FileInfo)
    (h : mimeIsImage f.mime = false) :
    (handleTemplateUpload st (some f)).templateError
        = some "Please choose an image file (JPG, PNG, SVG)."
    ∧ (handleTemplateUpload st (some f)).templateSrc = st.templateSrc
    ∧ (handleTemplateUpload st (some f)).templateData = st.templateData := by
  have hres : handleTemplateUpload st (some f)
      = { st with templateError := some "Please choose an image file (JPG, PNG, SVG)." } := by
    simp only [handleTemplateUpload]
    rw [if_pos h]
  rw [hres]
  exact ⟨rfl, rfl, rfl⟩

/-- Witness for C8: a `text/plain` upload against the initial state. -/
theorem c8_template_upload_rejected_witness :
    (handleTemplateUpload initialState
        (some ⟨"notes.txt", "text/plain", "data:text/plain;base64,"⟩)).templateError
        = some "Please choose an image file (JPG, PNG, SVG)."
    ∧ (handleTemplateUpload initialState
        (some ⟨"notes.txt", "text/plain", "data:text/plain;base64,"⟩)).templateSrc
        = initialState.templateSrc
    ∧ (handleTemplateUpload initialState
        (some ⟨"notes.txt", "text/plain", "data:text/plain;base64,"⟩)).templateData
        = initialState.templateData :=
  c8_template_upload_rejected initialState _ (by decide)

/-! ## Claim C9 — generating with zero names is a refused no-op -/

/-- C9: calling generate with an empty NameList returns the state
unchanged and produces no archive, and the generate control is
disabled (`canGenerate` is false). -/
theorem c9_generate_empty_noop (st : AppState) (env : GenEnv)
    (h : st.names = []) :
    (handleGenerate st env).1 = st
    ∧ (handleGenerate st env).2 = none
    ∧ canGenerate st = false := by
  have h0 : st.names.length = 0 := by rw [h]; rfl
  unfold handleGenerate
  rw [if_pos h0]
  refine ⟨rfl, rfl, ?_⟩
  unfold canGenerate
  rw [h]
  rfl

/-- Witness for C9 at the initial state (no names loaded). -/
theorem c9_generate_empty_noop_witness :
    (handleGenerate initialState ⟨true, true, fun n => n⟩).1 = initialState
    ∧ (handleGenerate initialState ⟨true, true, fun n => n⟩).2 = none
    ∧ canGenerate initialState = false :=
  c9_generate_empty_noop initialState ⟨true, true, fun n => n⟩ rfl

/-! ## Claim C10 — upload normalization drops all-empty rows -/

lemma head_filter_eq_find (p : List String → Bool) (l : List (List String)) :
    (l.filter p).head? = l.find? p := by
  induction l with
  | nil => rfl
  | cons r t ih =>
    cases hp : p r with
    | true =>
      rw [List.filter_cons, hp, if_pos rfl, List.find?_cons_of_pos t hp]
      rfl
    | false =>
      rw [List.filter_cons, hp, if_neg (by simp), List.find?_cons_of_neg t (by simp [hp])]
      exact ih

/-- C10: upload normalization trims string cells, stringifies numeric
cells and blanks all other cell kinds; rows that are entirely empty
after normalization are dropped, so every stored row has a non-empty
cell, and the stored row 0 (the one header detection inspects) is the
first normalized row of the original sheet containing any non-empty
cell. -/
theorem c10_normalized_rows (rows : List (List Cell)) :
    (∀ r ∈ normalizedRows rows, ∃ c ∈ r, c ≠ "")
    ∧ (normalizedRows rows).head?
        = (rows.map (fun r => r.map normalizeCell)).find?
            (fun r => r.any (fun cell => cell != ""))
    ∧ (∀ s, normalizeCell (Cell.str s) = jsTrimStr s)
    ∧ (∀ n, normalizeCell (Cell.num n) = toString n)
    ∧ normalizeCell Cell.other = "" := by
  refine ⟨?_, ?_, fun s => rfl, fun n => rfl, rfl⟩
  · intro r hr
    have h2 := (List.mem_filter.mp hr).2
    obtain ⟨c, hc, hcne⟩ := List.any_eq_true.mp h2
    exact ⟨c, hc, by simpa using hcne⟩
  · exact head_filter_eq_find _ _

end NucleusCert
